/-
Verification of the mirage backend core (src/backend/backend.py and
src/backend/models/proxy.py) against its natural-language specification.

The Python code is shallowly embedded: `dict`s become association lists
preserving insertion order (`dictGet`, `dictSet`, `dictDelete`), coroutines
become pure functions parameterized by the outcome of their await points,
and the concurrent `get_profile` critical section becomes an explicit
interleaving state machine.
-/
import Mathlib

namespace Mirage

/-- A Python `dict` is modelled as an association list in insertion order:
keys are unique, lookup returns the value stored at a key, and updating an
existing key keeps its position. -/
def dictGet {K V : Type} [DecidableEq K] : List (K × V) → K → Option V
  | [], _ => none
  | e :: rest, k => if e.1 = k then some e.2 else dictGet rest k

/-- `d[k] = v` on a Python dict: replaces in place when the key exists,
appends at the end otherwise. -/
def dictSet {K V : Type} [DecidableEq K] : List (K × V) → K → V → List (K × V)
  | [], k, v => [(k, v)]
  | e :: rest, k, v => if e.1 = k then (k, v) :: rest else e :: dictSet rest k v

/-- Removing a key from a dict.  On a uniquely-keyed list this removes the
one entry stored under `k`; on an absent key it is a no-op (the behaviour
the spec prescribes for `delete`). -/
def dictDelete {K V : Type} [DecidableEq K] (m : List (K × V)) (k : K) : List (K × V) :=
  m.filter (fun e => !decide (e.1 = k))

/-- First-some choice on options, used to state "a mirrored write wins over
whatever the accumulator previously held". -/
def optOr {V : Type} : Option V → Option V → Option V
  | some v, _ => some v
  | none, b => b

@[simp]
theorem optOr_none_left {V : Type} (b : Option V) : optOr none b = b := rfl

@[simp]
theorem optOr_some_left {V : Type} (v : V) (b : Option V) : optOr (some v) b = some v := rfl

@[simp]
theorem optOr_none_right {V : Type} (a : Option V) : optOr a none = a := by
  cases a <;> rfl

theorem dictGet_dictSet {K V : Type} [DecidableEq K] (m : List (K × V)) (k k' : K) (v : V) :
    dictGet (dictSet m k v) k' = if k = k' then some v else dictGet m k' := by
  induction m with
  | nil =>
    simp only [dictSet, dictGet]
  | cons e rest ih =>
    by_cases h : e.1 = k
    · simp only [dictSet, h, if_pos rfl, dictGet]
      by_cases h' : k = k' <;> simp [h']
    · simp only [dictSet, if_neg h, dictGet, ih]
      by_cases h' : e.1 = k'
      · have hk : ¬ k = k' := fun hkk => h (hkk ▸ h')
        simp [h', hk]
      · simp [h']

theorem dictGet_dictDelete {K V : Type} [DecidableEq K] (m : List (K × V)) (k k' : K) :
    dictGet (dictDelete m k) k' = if k = k' then none else dictGet m k' := by
  induction m with
  | nil =>
    simp [dictDelete, dictGet]
  | cons e rest ih =>
    simp only [dictDelete, List.filter_cons]
    by_cases he : e.1 = k
    · rw [if_neg (by simp [he])]
      simp only [dictDelete] at ih
      rw [ih]
      by_cases hk : k = k'
      · simp [hk]
      · rw [if_neg hk, if_neg hk]
        simp only [dictGet]
        rw [if_neg (by rw [he]; exact hk)]
    · rw [if_pos (by simp [he])]
      simp only [dictGet]
      by_cases he' : e.1 = k'
      · rw [if_pos he']
        have hk : ¬ k = k' := fun hkk => he (by rw [he', hkk])
        rw [if_neg hk, if_pos he']
      · rw [if_neg he']
        have hfil : rest.filter (fun e => !decide (e.1 = k)) = dictDelete rest k := rfl
        rw [hfil, ih]
        by_cases hk : k = k'
        · simp [hk]
        · rw [if_neg hk, if_neg hk, if_neg he']

theorem dictGet_eq_none_of_not_mem {K V : Type} [DecidableEq K]
    (m : List (K × V)) (k : K) (h : k ∉ m.map Prod.fst) : dictGet m k = none := by
  induction m with
  | nil => rfl
  | cons e rest ih =>
    simp only [List.map_cons, List.mem_cons] at h
    push_neg at h
    simp only [dictGet, if_neg (fun he : e.1 = k => h.1 he.symm)]
    exact ih h.2

theorem dictDelete_of_get_none {K V : Type} [DecidableEq K]
    (m : List (K × V)) (k : K) (h : dictGet m k = none) : dictDelete m k = m := by
  induction m with
  | nil => rfl
  | cons e rest ih =>
    simp only [dictGet] at h
    by_cases he : e.1 = k
    · rw [if_pos he] at h
      exact absurd h (by simp)
    · rw [if_neg he] at h
      simp only [dictDelete, List.filter_cons]
      rw [if_pos (by simp [he])]
      have hfil : rest.filter (fun e => !decide (e.1 = k)) = dictDelete rest k := rfl
      rw [hfil, ih h]

/-!
## ModelProxy (src/backend/models/proxy.py)

A proxy's contents are a dict keyed by the composite key
`(source.sync_id, key)`.  `accept_source` is an overridable predicate on
the source; the base class accepts everything, subclasses decide from the
source's `sync_id`, so it is embedded as a parameter `accept : σ → Bool`
applied to the source's identity.

The `Model` base class (`models/model.py`) is not part of the excerpt;
its mutation primitives are modelled from the spec, which prescribes for
`delete(key)`: "removes `key` if present; no-op and no event if absent".
-/

/-- `ModelProxy.source_item_set`: mirror a write from an accepted source
under the composite key `(source.sync_id, key)`. -/
def source_item_set {σ K V : Type} [DecidableEq σ] [DecidableEq K]
    (accept : σ → Bool) (proxy : List ((σ × K) × V)) (srcId : σ) (key : K)
    (value : V) : List ((σ × K) × V) :=
  if accept srcId then dictSet proxy (srcId, key) value else proxy

/-- `ModelProxy.source_item_deleted`: drop the composite key mirrored from
an accepted source.  Modelled from the spec: the deletion primitive of the
`Model` base class (not in the excerpt) removes the key if present and is
a no-op when absent (spec section 4.1). -/
def source_item_deleted {σ K V : Type} [DecidableEq σ] [DecidableEq K]
    (accept : σ → Bool) (proxy : List ((σ × K) × V)) (srcId : σ) (key : K) :
    List ((σ × K) × V) :=
  if accept srcId then dictDelete proxy (srcId, key) else proxy

/-- `ModelProxy.source_cleared`: when the source is accepted, iterate a
snapshot of the proxy's composite keys and delete every one whose first
component is the clearing source's `sync_id`. -/
def source_cleared {σ K V : Type} [DecidableEq σ] [DecidableEq K]
    (accept : σ → Bool) (proxy : List ((σ × K) × V)) (srcId : σ) :
    List ((σ × K) × V) :=
  if accept srcId then
    (proxy.map Prod.fst).foldl
      (fun acc ck => if ck.1 = srcId then dictDelete acc ck else acc) proxy
  else proxy

/-- One step of `ModelProxy.__init__`'s replay loop: a registered
collection is mirrored in full when it is not the proxy itself and is
accepted. -/
def proxy_init_step {σ K V : Type} [DecidableEq σ] [DecidableEq K]
    (accept : σ → Bool) (selfId : σ) (acc : List ((σ × K) × V))
    (src : σ × List (K × V)) : List ((σ × K) × V) :=
  if src.1 ≠ selfId ∧ accept src.1 = true then
    src.2.foldl (fun a kv => source_item_set accept a src.1 kv.1 kv.2) acc
  else acc

/-- `ModelProxy.__init__`: starting from the empty proxy, replay the
current contents of every collection registered in `Model.instances`. -/
def proxy_init {σ K V : Type} [DecidableEq σ] [DecidableEq K]
    (accept : σ → Bool) (selfId : σ) (instances : List (σ × List (K × V))) :
    List ((σ × K) × V) :=
  instances.foldl (proxy_init_step accept selfId) []

/-- The lookup a freshly-constructed proxy should satisfy, stated from the
spec's words: an entry appears under `(sid, k)` exactly when the registry
holds a collection `sid` other than the proxy itself, that collection is
accepted, and it currently stores `k`. -/
def proxy_init_spec_lookup {σ K V : Type} [DecidableEq σ] [DecidableEq K]
    (accept : σ → Bool) (selfId : σ) (instances : List (σ × List (K × V)))
    (q : σ × K) : Option V :=
  match dictGet instances q.1 with
  | some m => if q.1 ≠ selfId ∧ accept q.1 = true then dictGet m q.2 else none
  | none => none

theorem dictGet_mirror_fold {σ K V : Type} [DecidableEq σ] [DecidableEq K]
    (accept : σ → Bool) (s : σ) (haccept : accept s = true)
    (m : List (K × V)) (hnd : (m.map Prod.fst).Nodup)
    (acc : List ((σ × K) × V)) (q : σ × K) :
    dictGet (m.foldl (fun a kv => source_item_set accept a s kv.1 kv.2) acc) q
      = if q.1 = s then optOr (dictGet m q.2) (dictGet acc q)
        else dictGet acc q := by
  obtain ⟨q1, q2⟩ := q
  induction m generalizing acc with
  | nil =>
    by_cases h : q1 = s <;> simp [dictGet, h]
  | cons kv rest ih =>
    obtain ⟨k0, v0⟩ := kv
    simp only [List.map_cons, List.nodup_cons] at hnd
    simp only [List.foldl_cons]
    rw [ih hnd.2]
    simp only [source_item_set, haccept, if_true]
    by_cases hq : q1 = s
    · rw [if_pos hq, if_pos hq]
      by_cases hk : k0 = q2
      · have h1 : dictGet ((k0, v0) :: rest) q2 = some v0 := by
          simp [dictGet, hk]
        have h2 : dictGet rest q2 = none :=
          dictGet_eq_none_of_not_mem _ _ (hk ▸ hnd.1)
        rw [h1, h2, optOr_none_left, dictGet_dictSet,
          if_pos (by rw [hq, hk]), optOr_some_left]
      · have h1 : dictGet ((k0, v0) :: rest) q2 = dictGet rest q2 := by
          simp [dictGet, hk]
        rw [h1, dictGet_dictSet,
          if_neg (fun hc : (s, k0) = (q1, q2) => hk (congrArg Prod.snd hc))]
    · rw [if_neg hq, if_neg hq, dictGet_dictSet,
        if_neg (fun hc : (s, k0) = (q1, q2) => hq ((congrArg Prod.fst hc).symm))]

theorem dictGet_proxy_init_fold {σ K V : Type} [DecidableEq σ] [DecidableEq K]
    (accept : σ → Bool) (selfId : σ) (instances : List (σ × List (K × V)))
    (hnd : (instances.map Prod.fst).Nodup)
    (hsrc : ∀ p ∈ instances, (p.2.map Prod.fst).Nodup)
    (acc : List ((σ × K) × V)) (q : σ × K) :
    dictGet (instances.foldl (proxy_init_step accept selfId) acc) q
      = optOr (proxy_init_spec_lookup accept selfId instances q)
          (dictGet acc q) := by
  induction instances generalizing acc with
  | nil =>
    simp [proxy_init_spec_lookup, dictGet]
  | cons p rest ih =>
    obtain ⟨s, m⟩ := p
    simp only [List.map_cons, List.nodup_cons] at hnd
    simp only [List.foldl_cons]
    rw [ih hnd.2 (fun p hp => hsrc p (List.mem_cons_of_mem _ hp))]
    by_cases hq : q.1 = s
    · have hrest : dictGet rest q.1 = none :=
        dictGet_eq_none_of_not_mem _ _ (hq ▸ hnd.1)
      have hspecrest : proxy_init_spec_lookup accept selfId rest q = none := by
        simp [proxy_init_spec_lookup, hrest]
      have hcons : dictGet ((s, m) :: rest) q.1 = some m := by
        simp [dictGet, hq]
      rw [hspecrest, optOr_none_left]
      simp only [proxy_init_spec_lookup, hcons]
      by_cases hg : s ≠ selfId ∧ accept s = true
      · rw [proxy_init_step, if_pos hg,
          dictGet_mirror_fold accept s hg.2 m (hsrc (s, m) (List.mem_cons_self _ _)) acc q,
          if_pos hq, if_pos (hq ▸ hg)]
      · rw [proxy_init_step, if_neg hg, if_neg (by rw [hq]; exact hg), optOr_none_left]
    · have hcons : dictGet ((s, m) :: rest) q.1 = dictGet rest q.1 := by
        simp only [dictGet]
        rw [if_neg (fun h : s = q.1 => hq h.symm)]
      have hstep : dictGet (proxy_init_step accept selfId acc (s, m)) q = dictGet acc q := by
        rw [proxy_init_step]
        by_cases hg : s ≠ selfId ∧ accept s = true
        · rw [if_pos hg,
            dictGet_mirror_fold accept s hg.2 m (hsrc (s, m) (List.mem_cons_self _ _)) acc q,
            if_neg hq]
        · rw [if_neg hg]
      rw [hstep]
      simp only [proxy_init_spec_lookup, hcons]

/-- **C3.** A deletion event for a composite key that was never mirrored
into the proxy is a no-op: `source_item_deleted` leaves the view unchanged
(and, being total, raises nothing) when `(sourceIdentity, key)` is absent. -/
theorem source_item_deleted_absent_noop {σ K V : Type} [DecidableEq σ] [DecidableEq K]
    (accept : σ → Bool) (proxy : List ((σ × K) × V)) (srcId : σ) (key : K)
    (habsent : dictGet proxy (srcId, key) = none) :
    source_item_deleted accept proxy srcId key = proxy := by
  unfold source_item_deleted
  by_cases h : accept srcId = true
  · rw [if_pos h]
    exact dictDelete_of_get_none _ _ habsent
  · rw [if_neg h]

theorem source_item_deleted_absent_noop_witness :
    dictGet [(((1 : ℕ), (2 : ℕ)), (5 : ℕ))] ((3 : ℕ), (4 : ℕ)) = none ∧
    source_item_deleted (fun _ => true) [(((1 : ℕ), (2 : ℕ)), (5 : ℕ))] 3 4
      = [((1, 2), 5)] :=
  ⟨by decide,
   source_item_deleted_absent_noop (fun _ => true) [(((1 : ℕ), (2 : ℕ)), (5 : ℕ))] 3 4
     (by decide)⟩

/-- **C4.** On construction, every `(key, item)` pair of every registered
collection that is not the proxy itself and satisfies `accept` is mirrored
into the proxy under the composite key `(sourceIdentity, key)` with the
very item stored in the source, and collections that are the proxy itself
or not accepted contribute nothing. -/
theorem proxy_init_mirrors_existing {σ K V : Type} [DecidableEq σ] [DecidableEq K]
    (accept : σ → Bool) (selfId : σ) (instances : List (σ × List (K × V)))
    (hnd : (instances.map Prod.fst).Nodup)
    (hsrc : ∀ p ∈ instances, (p.2.map Prod.fst).Nodup) :
    (∀ sid m, dictGet instances sid = some m → sid ≠ selfId →
      accept sid = true → ∀ k v, dictGet m k = some v →
        dictGet (proxy_init accept selfId instances) (sid, k) = some v)
    ∧ (∀ sid k, sid = selfId ∨ accept sid = false →
        dictGet (proxy_init accept selfId instances) (sid, k) = none) := by
  have hmain : ∀ q, dictGet (proxy_init accept selfId instances) q
      = proxy_init_spec_lookup accept selfId instances q := by
    intro q
    rw [proxy_init, dictGet_proxy_init_fold accept selfId instances hnd hsrc [] q]
    rw [show dictGet ([] : List ((σ × K) × V)) q = none from rfl, optOr_none_right]
  constructor
  · intro sid m hm hself hacc k v hv
    rw [hmain (sid, k)]
    simp [proxy_init_spec_lookup, hm, hself, hacc, hv]
  · intro sid k hcase
    rw [hmain (sid, k)]
    simp only [proxy_init_spec_lookup]
    cases hg : dictGet instances sid with
    | none => rfl
    | some m =>
      rcases hcase with h | h
      · simp [h]
      · simp [h]

theorem proxy_init_mirrors_existing_witness :
    ((([((10 : ℕ), [((1 : ℕ), (100 : ℕ))]), (20, [(1, 200)])].map Prod.fst).Nodup)
      ∧ (∀ p ∈ [((10 : ℕ), [((1 : ℕ), (100 : ℕ))]), (20, [(1, 200)])],
          (p.2.map Prod.fst).Nodup))
    ∧ dictGet (proxy_init (fun s => decide (s ≠ 20)) 99
        [((10 : ℕ), [((1 : ℕ), (100 : ℕ))]), (20, [(1, 200)])]) (10, 1) = some 100
    ∧ dictGet (proxy_init (fun s => decide (s ≠ 20)) 99
        [((10 : ℕ), [((1 : ℕ), (100 : ℕ))]), (20, [(1, 200)])]) (20, 1) = none := by
  refine ⟨⟨by decide, by decide⟩, ?_, ?_⟩
  · exact (proxy_init_mirrors_existing (fun s => decide (s ≠ 20)) 99
      [((10 : ℕ), [((1 : ℕ), (100 : ℕ))]), (20, [(1, 200)])]
      (by decide) (by decide)).1 10 [(1, 100)] (by decide) (by decide) (by decide)
      1 100 (by decide)
  · exact (proxy_init_mirrors_existing (fun s => decide (s ≠ 20)) 99
      [((10 : ℕ), [((1 : ℕ), (100 : ℕ))]), (20, [(1, 200)])]
      (by decide) (by decide)).2 20 1 (Or.inr (by decide))

theorem clear_fold_eq_filter {σ K V : Type} [DecidableEq σ] [DecidableEq K]
    (srcId : σ) (L : List (σ × K)) (m : List ((σ × K) × V)) :
    L.foldl (fun acc ck => if ck.1 = srcId then dictDelete acc ck else acc) m
      = m.filter (fun e => !(decide (e.1.1 = srcId) && decide (e.1 ∈ L))) := by
  induction L generalizing m with
  | nil =>
    simp only [List.foldl_nil]
    refine (List.filter_eq_self.mpr ?_).symm
    intro e _
    simp
  | cons ck L' ih =>
    simp only [List.foldl_cons]
    rw [ih]
    by_cases hck : ck.1 = srcId
    · rw [if_pos hck]
      unfold dictDelete
      rw [List.filter_filter]
      apply List.filter_congr
      intro e he
      by_cases h1 : e.1 = ck
      · simp [h1, hck]
      · by_cases h2 : e.1.1 = srcId <;> by_cases h3 : e.1 ∈ L' <;>
          simp [h1, h2, h3]
    · rw [if_neg hck]
      apply List.filter_congr
      intro e he
      by_cases h1 : e.1 = ck
      · rw [h1]
        simp [hck]
      · simp [h1]

/-- **C5.** A clear event from an accepted source removes exactly the
proxy entries whose composite key's first component is that source's
identity, leaving every entry from any other source in place (and in
order); a clear from a non-accepted source leaves the proxy entirely
unchanged. -/
theorem source_cleared_spec {σ K V : Type} [DecidableEq σ] [DecidableEq K]
    (accept : σ → Bool) (proxy : List ((σ × K) × V)) (srcId : σ) :
    source_cleared accept proxy srcId
      = if accept srcId then proxy.filter (fun e => !decide (e.1.1 = srcId))
        else proxy := by
  unfold source_cleared
  by_cases h : accept srcId = true
  · rw [if_pos h, if_pos h, clear_fold_eq_filter]
    apply List.filter_congr
    intro e he
    have hmem : e.1 ∈ proxy.map Prod.fst := List.mem_map_of_mem Prod.fst he
    simp [hmem]
  · rw [if_neg h, if_neg h]

/-!
## Backend client management (src/backend/backend.py)

Coroutines are embedded as pure functions over the relevant backend state
(`self.clients` and `self.models[Account]`), parameterized by the outcome
of each awaited network call.
-/

/-- A registered `MatrixClient`, identified by the user id the login or
resume established. -/
structure MatrixClient where
  user_id : String
  deriving DecidableEq, Repr

/-- The `Account` model item inserted for a registered client. -/
structure Account where
  user_id : String
  deriving DecidableEq, Repr

/-- The client-management state of `Backend`: the `clients` dict and the
`models[Account]` keyed collection, both dicts keyed by user id. -/
structure BackendState where
  clients  : List (String × MatrixClient)
  accounts : List (String × Account)
  deriving DecidableEq, Repr

/-- The state of a freshly constructed `Backend`: no clients, no
accounts. -/
def emptyBackend : BackendState := ⟨[], []⟩

/-- `Backend.login_client`, with the awaited `client.login(password)`
represented by its outcome: `.error e` when it raises a `MatrixError`,
`.ok uid` when it succeeds, leaving the client with `user_id = uid`.
Returns the new state, the result, and whether `client.close()` ran. -/
def login_client (st : BackendState) (login : Except String String) :
    BackendState × Except String String × Bool :=
  match login with
  | .error e => (st, .error e, true)
  | .ok uid =>
      ({ clients  := dictSet st.clients uid ⟨uid⟩,
         accounts := dictSet st.accounts uid ⟨uid⟩ }, .ok uid, false)

/-- `Backend.resume_client`: the client is registered in `clients` and in
`models[Account]` before `client.resume` is awaited, so registration
happens whatever the network outcome, which is then returned (a failure
raises only after registration). -/
def resume_client (st : BackendState) (user_id : String)
    (resume : Except String Unit) : BackendState × Except String Unit :=
  ({ clients  := dictSet st.clients user_id ⟨user_id⟩,
     accounts := dictSet st.accounts user_id ⟨user_id⟩ }, resume)

/-- `Backend.logout_client`: pop the client; only when one was actually
registered, also pop the `Account` entry and log the client out. -/
def logout_client (st : BackendState) (user_id : String) : BackendState :=
  match dictGet st.clients user_id with
  | some _ =>
      { clients  := dictDelete st.clients user_id,
        accounts := dictDelete st.accounts user_id }
  | none => st

/-- One completed client-management operation together with the outcome of
its awaited network call. -/
inductive BackendOp where
  | login  (outcome : Except String String)
  | resume (user_id : String) (outcome : Except String Unit)
  | logout (user_id : String)

/-- Effect of one completed operation on the backend state. -/
def applyOp (st : BackendState) : BackendOp → BackendState
  | .login outcome => (login_client st outcome).1
  | .resume uid outcome => (resume_client st uid outcome).1
  | .logout uid => logout_client st uid

/-- The session/account lockstep invariant: a user id is registered in
`clients` exactly when it has an entry in `models[Account]`. -/
def inLockstep (st : BackendState) : Prop :=
  ∀ uid, (dictGet st.clients uid).isSome ↔ (dictGet st.accounts uid).isSome

theorem inLockstep_applyOp {st : BackendState} (hst : inLockstep st)
    (op : BackendOp) : inLockstep (applyOp st op) := by
  cases op with
  | login outcome =>
    cases outcome with
    | error e => exact hst
    | ok uid =>
      intro u
      simp only [applyOp, login_client]
      rw [dictGet_dictSet, dictGet_dictSet]
      by_cases h : uid = u
      · simp [h]
      · rw [if_neg h, if_neg h]
        exact hst u
  | resume uid outcome =>
    intro u
    simp only [applyOp, resume_client]
    rw [dictGet_dictSet, dictGet_dictSet]
    by_cases h : uid = u
    · simp [h]
    · rw [if_neg h, if_neg h]
      exact hst u
  | logout uid =>
    intro u
    simp only [applyOp, logout_client]
    cases hg : dictGet st.clients uid with
    | some c =>
      simp only
      rw [dictGet_dictDelete, dictGet_dictDelete]
      by_cases h : uid = u
      · simp [h]
      · rw [if_neg h, if_neg h]
        exact hst u
    | none => exact hst u

theorem inLockstep_foldl {st : BackendState} (hst : inLockstep st)
    (ops : List BackendOp) : inLockstep (ops.foldl applyOp st) := by
  induction ops generalizing st with
  | nil => exact hst
  | cons op rest ih => exact ih (inLockstep_applyOp hst op)

/-- **C6.** After every sequence of completed `login_client`,
`resume_client` and `logout_client` operations starting from an empty
`Backend`, a user id has an entry in `clients` if and only if it has an
entry in `models[Account]`: the two maps stay in lockstep. -/
theorem clients_accounts_lockstep (ops : List BackendOp) :
    inLockstep (ops.foldl applyOp emptyBackend) :=
  inLockstep_foldl (fun _ => Iff.rfl) ops

/-- **C10.** When the awaited login raises a `MatrixError`, `login_client`
closes the fresh client, re-raises that error, and leaves both the
clients dict and the Account collection untouched; on success it
registers the client under the user id the login established, in both
maps, and returns that id. -/
theorem login_client_error_and_success (st : BackendState) (e uid : String) :
    ((login_client st (.error e)).2.1 = .error e
      ∧ (login_client st (.error e)).2.2 = true
      ∧ ∀ u, dictGet (login_client st (.error e)).1.clients u = dictGet st.clients u
          ∧ dictGet (login_client st (.error e)).1.accounts u = dictGet st.accounts u)
    ∧ ((login_client st (.ok uid)).2.1 = .ok uid
      ∧ (login_client st (.ok uid)).2.2 = false
      ∧ dictGet (login_client st (.ok uid)).1.clients uid = some ⟨uid⟩
      ∧ dictGet (login_client st (.ok uid)).1.accounts uid = some ⟨uid⟩
      ∧ ∀ u, u ≠ uid →
          dictGet (login_client st (.ok uid)).1.clients u = dictGet st.clients u
          ∧ dictGet (login_client st (.ok uid)).1.accounts u = dictGet st.accounts u) := by
  refine ⟨⟨rfl, rfl, fun u => ⟨rfl, rfl⟩⟩, rfl, rfl, ?_, ?_, ?_⟩
  · show dictGet (dictSet st.clients uid ⟨uid⟩) uid = some ⟨uid⟩
    rw [dictGet_dictSet, if_pos rfl]
  · show dictGet (dictSet st.accounts uid ⟨uid⟩) uid = some ⟨uid⟩
    rw [dictGet_dictSet, if_pos rfl]
  · intro u hu
    constructor
    · show dictGet (dictSet st.clients uid ⟨uid⟩) u = dictGet st.clients u
      rw [dictGet_dictSet, if_neg (fun h => hu h.symm)]
    · show dictGet (dictSet st.accounts uid ⟨uid⟩) u = dictGet st.accounts u
      rw [dictGet_dictSet, if_neg (fun h => hu h.symm)]

theorem login_client_error_and_success_witness :
    (login_client emptyBackend (.error "bad password")).2.1 = .error "bad password"
    ∧ dictGet (login_client ⟨[("@a:x", ⟨"@a:x"⟩)], [("@a:x", ⟨"@a:x"⟩)]⟩
        (.ok "@b:x")).1.clients "@a:x" = some ⟨"@a:x"⟩ := by
  constructor
  · exact (login_client_error_and_success emptyBackend "bad password" "@u:x").1.1
  · have h := (login_client_error_and_success
      ⟨[("@a:x", ⟨"@a:x"⟩)], [("@a:x", ⟨"@a:x"⟩)]⟩ "e" "@b:x").2.2.2.2.2
      "@a:x" (by decide)
    rw [h.1]
    decide

/-- `asyncio.gather` with `return_exceptions` left at its default `False`:
awaiting it yields the list of task results when every task succeeds, and
a single failing task's exception otherwise. -/
def gather {ε α : Type} : List (Except ε α) → Except ε (List α)
  | [] => .ok []
  | .error e :: _ => .error e
  | .ok v :: rest => (gather rest).map (fun l => v :: l)

/-- The `resume` closure inside `load_saved_accounts`: resume one saved
account and yield its user id on success. -/
def resume_task (st : BackendState) (user_id : String)
    (resume : Except String Unit) : BackendState × Except String String :=
  let r := resume_client st user_id resume
  (r.1, r.2.map (fun _ => user_id))

/-- `Backend.load_saved_accounts`: one `resume` task per saved account
(each registers its client before awaiting the network, and no failure
cancels a sibling), awaited through `gather`. -/
def load_saved_accounts (st : BackendState)
    (saved : List (String × Except String Unit)) :
    BackendState × Except String (List String) :=
  let run := saved.foldl
    (fun (acc : BackendState × List (Except String String)) p =>
      let r := resume_task acc.1 p.1 p.2
      (r.1, acc.2 ++ [r.2])) (st, [])
  (run.1, gather run.2)

/-- The registration side effects of resuming every saved account. -/
def resume_all_state (st : BackendState)
    (saved : List (String × Except String Unit)) : BackendState :=
  saved.foldl (fun s p => (resume_client s p.1 p.2).1) st

theorem load_saved_accounts_run (st : BackendState)
    (saved : List (String × Except String Unit)) :
    load_saved_accounts st saved
      = (resume_all_state st saved,
         gather (saved.map (fun p => p.2.map (fun _ => p.1)))) := by
  suffices h : ∀ (res : List (Except String String)),
      saved.foldl
        (fun (acc : BackendState × List (Except String String)) p =>
          let r := resume_task acc.1 p.1 p.2
          (r.1, acc.2 ++ [r.2])) (st, res)
      = (resume_all_state st saved,
         res ++ saved.map (fun p => p.2.map (fun _ => p.1))) by
    rw [load_saved_accounts, h []]
    rfl
  induction saved generalizing st with
  | nil =>
    intro res
    simp [resume_all_state]
  | cons p rest ih =>
    intro res
    rw [List.foldl_cons, List.map_cons]
    show List.foldl
        (fun (acc : BackendState × List (Except String String)) p =>
          let r := resume_task acc.1 p.1 p.2
          (r.1, acc.2 ++ [r.2]))
        ((resume_client st p.1 p.2).1, res ++ [p.2.map (fun _ => p.1)]) rest
      = (resume_all_state st (p :: rest),
         res ++ p.2.map (fun _ => p.1)
           :: rest.map (fun p => p.2.map (fun _ => p.1)))
    rw [ih ((resume_client st p.1 p.2).1) (res ++ [p.2.map (fun _ => p.1)]),
      List.append_assoc]
    rfl

theorem resume_all_state_lookup (st : BackendState)
    (saved : List (String × Except String Unit)) (u : String) :
    (dictGet (resume_all_state st saved).clients u
        = if u ∈ saved.map Prod.fst then some ⟨u⟩ else dictGet st.clients u)
    ∧ (dictGet (resume_all_state st saved).accounts u
        = if u ∈ saved.map Prod.fst then some ⟨u⟩ else dictGet st.accounts u) := by
  induction saved generalizing st with
  | nil => simp [resume_all_state]
  | cons p rest ih =>
    have ihp := ih (resume_client st p.1 p.2).1
    have hunf : resume_all_state st (p :: rest)
        = resume_all_state (resume_client st p.1 p.2).1 rest := rfl
    rw [hunf]
    have hc : dictGet (resume_client st p.1 p.2).1.clients u
        = if p.1 = u then some ⟨p.1⟩ else dictGet st.clients u := by
      show dictGet (dictSet st.clients p.1 ⟨p.1⟩) u = _
      rw [dictGet_dictSet]
    have ha : dictGet (resume_client st p.1 p.2).1.accounts u
        = if p.1 = u then some ⟨p.1⟩ else dictGet st.accounts u := by
      show dictGet (dictSet st.accounts p.1 ⟨p.1⟩) u = _
      rw [dictGet_dictSet]
    rw [ihp.1, ihp.2, hc, ha]
    by_cases hrest : u ∈ rest.map Prod.fst
    · constructor <;> simp [List.map_cons, List.mem_cons, hrest]
    · by_cases hp : p.1 = u
      · constructor <;> simp [List.map_cons, List.mem_cons, hrest, hp]
      · have hup : ¬ u = p.1 := fun h => hp h.symm
        constructor <;> simp [List.map_cons, List.mem_cons, hrest, hp, hup]

theorem gather_all_ok {ε α : Type} (l : List α) :
    gather (l.map (Except.ok : α → Except ε α)) = .ok l := by
  induction l with
  | nil => rfl
  | cons v rest ih => simp [gather, ih, Except.map]

theorem gather_error_mem {ε α : Type} (l : List (Except ε α)) (e : ε)
    (h : gather l = .error e) : Except.error e ∈ l := by
  induction l with
  | nil => exact absurd h (by simp [gather])
  | cons r rest ih =>
    cases r with
    | error e' =>
      simp only [gather] at h
      cases h
      exact List.mem_cons_self _ _
    | ok v =>
      simp only [gather] at h
      cases hg : gather rest with
      | ok _ => rw [hg] at h; simp [Except.map] at h
      | error e'' =>
        rw [hg] at h
        simp only [Except.map] at h
        cases h
        exact List.mem_cons_of_mem _ (ih hg)

/-- **C1 counterexample.** Two saved accounts, the second of which fails
to resume: `load_saved_accounts` yields the failing account's single
exception, and the successful resume of `"@a:x"` is reported nowhere —
the per-account outcomes are not collected. -/
theorem load_saved_accounts_single_error :
    (load_saved_accounts emptyBackend
      [("@a:x", .ok ()), ("@b:x", .error "resume failed")]).2
    = .error "resume failed" := rfl

/-- **C1 amended.** `load_saved_accounts` resumes every saved account and
waits on all of them; each account's client and Account entry are
registered before its network resume is awaited, so one account's failure
prevents no sibling's resume from completing.  However the per-account
failures are not collected individually: the operation yields the user id
list only when every resume succeeds, and otherwise propagates a single
failing account's exception. -/
theorem load_saved_accounts_amended (st : BackendState)
    (saved : List (String × Except String Unit)) :
    (∀ p ∈ saved,
      dictGet (load_saved_accounts st saved).1.clients p.1 = some ⟨p.1⟩
      ∧ dictGet (load_saved_accounts st saved).1.accounts p.1 = some ⟨p.1⟩)
    ∧ ((∀ p ∈ saved, p.2 = .ok ()) →
        (load_saved_accounts st saved).2 = .ok (saved.map Prod.fst))
    ∧ (∀ e, (load_saved_accounts st saved).2 = .error e →
        ∃ p ∈ saved, p.2 = .error e) := by
  rw [load_saved_accounts_run]
  refine ⟨?_, ?_, ?_⟩
  · intro p hp
    have hmem : p.1 ∈ saved.map Prod.fst := List.mem_map_of_mem Prod.fst hp
    have h := resume_all_state_lookup st saved p.1
    exact ⟨by rw [h.1, if_pos hmem], by rw [h.2, if_pos hmem]⟩
  · intro hall
    have hmap : saved.map (fun p => p.2.map (fun _ => p.1))
        = (saved.map Prod.fst).map Except.ok := by
      rw [List.map_map]
      apply List.map_congr_left
      intro p hp
      rw [hall p hp]
      rfl
    rw [show (resume_all_state st saved,
        gather (saved.map (fun p => p.2.map (fun _ => p.1)))).2
        = gather (saved.map (fun p => p.2.map (fun _ => p.1))) from rfl]
    rw [hmap, gather_all_ok]
  · intro e he
    rw [show (resume_all_state st saved,
        gather (saved.map (fun p => p.2.map (fun _ => p.1)))).2
        = gather (saved.map (fun p => p.2.map (fun _ => p.1))) from rfl] at he
    have hmem := gather_error_mem _ _ he
    rcases List.mem_map.mp hmem with ⟨p, hp, hpe⟩
    refine ⟨p, hp, ?_⟩
    cases hq : p.2 with
    | ok v => rw [hq] at hpe; simp [Except.map] at hpe
    | error e' =>
      rw [hq] at hpe
      simp only [Except.map] at hpe
      cases hpe
      rfl

theorem load_saved_accounts_amended_witness :
    dictGet (load_saved_accounts emptyBackend
      [("@a:x", .ok ()), ("@b:x", .error "boom")]).1.clients "@b:x"
      = some ⟨"@b:x"⟩
    ∧ (load_saved_accounts emptyBackend [("@c:x", .ok ())]).2 = .ok ["@c:x"] := by
  constructor
  · exact ((load_saved_accounts_amended emptyBackend
      [("@a:x", .ok ()), ("@b:x", .error "boom")]).1
      ("@b:x", .error "boom") (by simp)).1
  · exact (load_saved_accounts_amended emptyBackend [("@c:x", .ok ())]).2.1
      (by intro p hp; rw [List.mem_singleton] at hp; subst hp; rfl)

/-!
## Waiting primitives: get_client and get_any_client

Both loops poll on a fixed `asyncio.sleep(0.1)` interval.  The state of
`self.clients` observed at the start of the i-th iteration is supplied by
a function of `i` (other tasks may mutate the dict while this one
sleeps); the loop is observed for a bounded number `fuel` of iterations,
with `found = none` meaning "still polling after `fuel` attempts" — the
loop itself has no give-up exit.
-/

/-- The observable outcome of a polling loop after at most `fuel`
iterations: the value found (if any), the number of completed 0.1-second
sleeps before returning, and how many diagnostics were logged. -/
structure PollOutcome (α : Type) where
  found    : Option α
  sleeps   : Nat
  warnings : Nat
  deriving DecidableEq, Repr

/-- The loop of `Backend.get_client` for one user id: `clientsAt i` is
`self.clients.get(user_id)` as observed at the i-th check.  `failures`
counts completed sleeps; before each sleep a warning is logged when
`failures` is a positive multiple of 100 (every 10 seconds). -/
def get_client_go (clientsAt : Nat → Option MatrixClient) :
    Nat → Nat → Nat → PollOutcome MatrixClient
  | 0, failures, warnings => ⟨none, failures, warnings⟩
  | fuel + 1, failures, warnings =>
    match clientsAt failures with
    | some c => ⟨some c, failures, warnings⟩
    | none =>
      get_client_go clientsAt fuel (failures + 1)
        (if failures ≠ 0 ∧ failures % 100 = 0 then warnings + 1 else warnings)

/-- `Backend.get_client`, observed for `fuel` loop iterations. -/
def get_client (clientsAt : Nat → Option MatrixClient) (fuel : Nat) :
    PollOutcome MatrixClient :=
  get_client_go clientsAt fuel 0 0

theorem get_client_go_found (clientsAt : Nat → Option MatrixClient)
    (c : MatrixClient) :
    ∀ n fuel failures warnings, n < fuel →
      (∀ i, i < n → clientsAt (failures + i) = none) →
      clientsAt (failures + n) = some c →
      (get_client_go clientsAt fuel failures warnings).found = some c
        ∧ (get_client_go clientsAt fuel failures warnings).sleeps
            = failures + n := by
  intro n
  induction n with
  | zero =>
    intro fuel failures warnings hfuel _ hfound
    cases fuel with
    | zero => omega
    | succ f =>
      rw [Nat.add_zero] at hfound
      simp [get_client_go, hfound]
  | succ n ih =>
    intro fuel failures warnings hfuel hnone hfound
    cases fuel with
    | zero => omega
    | succ f =>
      have h0 : clientsAt failures = none := by
        have := hnone 0 (Nat.succ_pos n)
        rwa [Nat.add_zero] at this
      simp only [get_client_go, h0]
      have hres := ih f (failures + 1)
        (if failures ≠ 0 ∧ failures % 100 = 0 then warnings + 1 else warnings)
        (by omega)
        (fun i hi => by
          have := hnone (i + 1) (by omega)
          rwa [show failures + (i + 1) = failures + 1 + i by omega] at this)
        (by rwa [show failures + 1 + n = failures + (n + 1) by omega])
      exact ⟨hres.1, by rw [hres.2]; omega⟩

theorem get_client_go_none (clientsAt : Nat → Option MatrixClient) :
    ∀ fuel failures warnings,
      (∀ i, i < fuel → clientsAt (failures + i) = none) →
      (get_client_go clientsAt fuel failures warnings).found = none
        ∧ (get_client_go clientsAt fuel failures warnings).sleeps
            = failures + fuel := by
  intro fuel
  induction fuel with
  | zero =>
    intro failures warnings _
    exact ⟨rfl, rfl⟩
  | succ f ih =>
    intro failures warnings hnone
    have h0 : clientsAt failures = none := by
      have := hnone 0 (Nat.succ_pos f)
      rwa [Nat.add_zero] at this
    simp only [get_client_go, h0]
    have hres := ih (failures + 1)
      (if failures ≠ 0 ∧ failures % 100 = 0 then warnings + 1 else warnings)
      (fun i hi => by
        have := hnone (i + 1) (by omega)
        rwa [show failures + (i + 1) = failures + 1 + i by omega] at this)
    exact ⟨hres.1, by rw [hres.2]; omega⟩

theorem get_client_go_sound (clientsAt : Nat → Option MatrixClient)
    (c : MatrixClient) :
    ∀ fuel failures warnings,
      (get_client_go clientsAt fuel failures warnings).found = some c →
      clientsAt (get_client_go clientsAt fuel failures warnings).sleeps
        = some c := by
  intro fuel
  induction fuel with
  | zero =>
    intro failures warnings h
    exact absurd h (by simp [get_client_go])
  | succ f ih =>
    intro failures warnings h
    cases hq : clientsAt failures with
    | some c' =>
      simp only [get_client_go, hq] at h ⊢
      exact h
    | none =>
      simp only [get_client_go, hq] at h ⊢
      exact ih _ _ h

/-- **C7.** `get_client(user_id)` returns exactly the session registered
under that id.  Registered at call time, it returns the session before
any sleep and logs no diagnostic; issued before registration, it keeps
polling on the fixed 0.1-second interval, never giving up within any
observation bound, and resolves with the session at the first poll where
the id is registered. -/
theorem get_client_spec (clientsAt : Nat → Option MatrixClient) (fuel : Nat) :
    (∀ c, clientsAt 0 = some c → 0 < fuel →
        get_client clientsAt fuel = ⟨some c, 0, 0⟩)
    ∧ (∀ n c, (∀ i, i < n → clientsAt i = none) → clientsAt n = some c →
        n < fuel → (get_client clientsAt fuel).found = some c
          ∧ (get_client clientsAt fuel).sleeps = n)
    ∧ ((∀ i, i < fuel → clientsAt i = none) →
        (get_client clientsAt fuel).found = none
          ∧ (get_client clientsAt fuel).sleeps = fuel)
    ∧ (∀ c, (get_client clientsAt fuel).found = some c →
        clientsAt (get_client clientsAt fuel).sleeps = some c) := by
  refine ⟨?_, ?_, ?_, ?_⟩
  · intro c hc hfuel
    cases fuel with
    | zero => omega
    | succ f => simp [get_client, get_client_go, hc]
  · intro n c hnone hfound hfuel
    have h := get_client_go_found clientsAt c n fuel 0 0 hfuel
      (fun i hi => by simpa using hnone i hi) (by simpa using hfound)
    refine ⟨h.1, ?_⟩
    show (get_client_go clientsAt fuel 0 0).sleeps = n
    rw [h.2]
    omega
  · intro hnone
    have h := get_client_go_none clientsAt fuel 0 0
      (fun i hi => by simpa using hnone i hi)
    refine ⟨h.1, ?_⟩
    show (get_client_go clientsAt fuel 0 0).sleeps = fuel
    rw [h.2]
    omega
  · intro c h
    exact get_client_go_sound clientsAt c fuel 0 0 h

theorem get_client_spec_witness :
    (get_client (fun _ => some ⟨"@a:x"⟩) 3 = ⟨some ⟨"@a:x"⟩, 0, 0⟩)
    ∧ ((get_client (fun i => if i = 2 then some ⟨"@w:x"⟩ else none) 5).found
        = some ⟨"@w:x"⟩
      ∧ (get_client (fun i => if i = 2 then some ⟨"@w:x"⟩ else none) 5).sleeps
        = 2) :=
  ⟨(get_client_spec (fun _ => some ⟨"@a:x"⟩) 3).1 ⟨"@a:x"⟩ rfl (by decide),
   (get_client_spec (fun i => if i = 2 then some ⟨"@w:x"⟩ else none) 5).2.1
     2 ⟨"@w:x"⟩ (by decide) (by decide) (by decide)⟩

/-- A client as `get_any_client` observes it: its `syncing` health flag. -/
structure SyncClient where
  user_id : String
  syncing : Bool
  deriving DecidableEq, Repr

/-- One scan of `self.clients.values()` in registration (insertion)
order, returning the first client whose `syncing` flag is set. -/
def get_any_client_scan (clients : List SyncClient) : Option SyncClient :=
  clients.find? (fun c => c.syncing)

/-- The loop of `Backend.get_any_client`: scan the registered clients,
and, failing that, log a warning on every 300th failed attempt (30
seconds) and sleep 0.1 seconds before rescanning. -/
def get_any_client_go (clientsAt : Nat → List SyncClient) :
    Nat → Nat → Nat → PollOutcome SyncClient
  | 0, failures, warnings => ⟨none, failures, warnings⟩
  | fuel + 1, failures, warnings =>
    match get_any_client_scan (clientsAt failures) with
    | some c => ⟨some c, failures, warnings⟩
    | none =>
      get_any_client_go clientsAt fuel (failures + 1)
        (if failures ≠ 0 ∧ failures % 300 = 0 then warnings + 1 else warnings)

/-- `Backend.get_any_client`, observed for `fuel` loop iterations. -/
def get_any_client (clientsAt : Nat → List SyncClient) (fuel : Nat) :
    PollOutcome SyncClient :=
  get_any_client_go clientsAt fuel 0 0

theorem find_first_syncing (l₁ l₂ : List SyncClient) (c : SyncClient)
    (hl₁ : ∀ d ∈ l₁, d.syncing = false) (hc : c.syncing = true) :
    get_any_client_scan (l₁ ++ c :: l₂) = some c := by
  induction l₁ with
  | nil => simp [get_any_client_scan, List.find?_cons, hc]
  | cons d rest ih =>
    have hd : d.syncing = false := hl₁ d (List.mem_cons_self _ _)
    rw [List.cons_append]
    show List.find? (fun c => c.syncing) (d :: (rest ++ c :: l₂)) = some c
    rw [List.find?_cons_of_neg _ (by simp [hd])]
    exact ih (fun d hd' => hl₁ d (List.mem_cons_of_mem _ hd'))

theorem get_any_client_go_sound (clientsAt : Nat → List SyncClient)
    (c : SyncClient) :
    ∀ fuel failures warnings,
      (get_any_client_go clientsAt fuel failures warnings).found = some c →
      c.syncing = true := by
  intro fuel
  induction fuel with
  | zero =>
    intro failures warnings h
    exact absurd h (by simp [get_any_client_go])
  | succ f ih =>
    intro failures warnings h
    cases hq : get_any_client_scan (clientsAt failures) with
    | some c' =>
      simp only [get_any_client_go, hq] at h
      have hq' : List.find? (fun c => c.syncing) (clientsAt failures)
          = some c' := hq
      have hc' : c'.syncing = true := by
        have := List.find?_some hq'
        simpa using this
      cases h
      exact hc'
    | none =>
      simp only [get_any_client_go, hq] at h
      exact ih _ _ h

/-- **C8.** Whenever at least one registered session is flagged as
actively syncing, `get_any_client` returns the first syncing session in
registration (insertion) order of the clients dict, immediately and
without logging; and a session it returns always has its syncing flag
set. -/
theorem get_any_client_first_syncing (clientsAt : Nat → List SyncClient)
    (fuel : Nat) :
    (∀ (l₁ l₂ : List SyncClient) (c : SyncClient),
      clientsAt 0 = l₁ ++ c :: l₂ → (∀ d ∈ l₁, d.syncing = false) →
      c.syncing = true → 0 < fuel →
      get_any_client clientsAt fuel = ⟨some c, 0, 0⟩)
    ∧ (∀ c, (get_any_client clientsAt fuel).found = some c →
        c.syncing = true) := by
  constructor
  · intro l₁ l₂ c hsplit hl₁ hc hfuel
    cases fuel with
    | zero => omega
    | succ f =>
      have hscan : get_any_client_scan (clientsAt 0) = some c := by
        rw [hsplit]
        exact find_first_syncing l₁ l₂ c hl₁ hc
      simp [get_any_client, get_any_client_go, hscan]
  · intro c h
    exact get_any_client_go_sound clientsAt c fuel 0 0 h

theorem get_any_client_first_syncing_witness :
    get_any_client
      (fun _ => [⟨"@a:x", false⟩, ⟨"@b:x", true⟩, ⟨"@c:x", true⟩]) 1
      = ⟨some ⟨"@b:x", true⟩, 0, 0⟩ :=
  (get_any_client_first_syncing
      (fun _ => [⟨"@a:x", false⟩, ⟨"@b:x", true⟩, ⟨"@c:x", true⟩]) 1).1
    [⟨"@a:x", false⟩] [⟨"@c:x", true⟩] ⟨"@b:x", true⟩
    rfl (by decide) rfl (by decide)

/-!
## get_flat_mainpane_data (src/backend/backend.py)

`Account` and `Room` model items live in `models/items.py`, which is not
part of the excerpt; their comparison order is modelled from the spec:
accounts sort by account identity (user id), rooms by room identity
(room id).  Python's stable `sorted` is embedded as insertion sort.
-/

/-- An `Account` model item as the flattening consumes it. -/
structure AccountItem where
  user_id : String
  serialized : String
  deriving DecidableEq, Repr

/-- A `Room` model item as the flattening consumes it. -/
structure RoomItem where
  room_id : String
  serialized : String
  deriving DecidableEq, Repr

/-- One record of the flat mainpane list (a QML-facing dict). -/
structure PaneRecord where
  type : String
  id : String
  user_id : String
  data : String
  deriving DecidableEq, Repr

/-- The model collections the flattening walks:
`self.models[Account].values()` and `self.models[Room, user_id].values()`
in insertion order. -/
structure MainpaneModels where
  accounts : List AccountItem
  rooms : String → List RoomItem

/-- Modelled from the spec: account items compare by account identity. -/
def accountLe (a b : AccountItem) : Prop := a.user_id ≤ b.user_id

/-- Modelled from the spec: room items compare by room identity. -/
def roomLe (a b : RoomItem) : Prop := a.room_id ≤ b.room_id

instance : DecidableRel accountLe :=
  fun a b => inferInstanceAs (Decidable (a.user_id ≤ b.user_id))

instance : DecidableRel roomLe :=
  fun a b => inferInstanceAs (Decidable (a.room_id ≤ b.room_id))

instance : IsTotal AccountItem accountLe :=
  ⟨fun a b => le_total a.user_id b.user_id⟩

instance : IsTrans AccountItem accountLe :=
  ⟨fun _ _ _ h h' => le_trans h h'⟩

/-- The dict appended for an account row. -/
def accountRecord (a : AccountItem) : PaneRecord :=
  ⟨"Account", a.user_id, a.user_id, a.serialized⟩

/-- The dict appended for a room row: its id is the account user id and
the room id joined by `"/"`. -/
def roomRecord (a : AccountItem) (r : RoomItem) : PaneRecord :=
  ⟨"Room", a.user_id ++ "/" ++ r.room_id, a.user_id, r.serialized⟩

/-- `Backend.get_flat_mainpane_data`: walk the accounts sorted, appending
each account's record and then, walking that account's rooms sorted, one
record per room. -/
def get_flat_mainpane_data (models : MainpaneModels) : List PaneRecord :=
  (List.insertionSort accountLe models.accounts).foldl
    (fun data account =>
      (List.insertionSort roomLe (models.rooms account.user_id)).foldl
        (fun d room => d ++ [roomRecord account room])
        (data ++ [accountRecord account]))
    []

/-- The flat sequence the spec describes: accounts sorted by account
identity, each immediately followed by its own rooms sorted by room
identity. -/
def flat_mainpane_spec (models : MainpaneModels) : List PaneRecord :=
  (List.insertionSort accountLe models.accounts).flatMap
    (fun account =>
      accountRecord account
        :: (List.insertionSort roomLe (models.rooms account.user_id)).map
            (roomRecord account))

theorem foldl_append_singleton {α β : Type} (g : α → β) :
    ∀ (l : List α) (init : List β),
      l.foldl (fun d a => d ++ [g a]) init = init ++ l.map g := by
  intro l
  induction l with
  | nil => intro init; simp
  | cons a rest ih =>
    intro init
    rw [List.foldl_cons, ih (init ++ [g a]), List.map_cons, List.append_assoc]
    rfl

theorem get_flat_mainpane_fold (models : MainpaneModels) :
    ∀ (accs : List AccountItem) (init : List PaneRecord),
      accs.foldl
        (fun data account =>
          (List.insertionSort roomLe (models.rooms account.user_id)).foldl
            (fun d room => d ++ [roomRecord account room])
            (data ++ [accountRecord account]))
        init
      = init ++ accs.flatMap
          (fun account =>
            accountRecord account
              :: (List.insertionSort roomLe (models.rooms account.user_id)).map
                  (roomRecord account)) := by
  intro accs
  induction accs with
  | nil => intro init; simp
  | cons a rest ih =>
    intro init
    rw [List.foldl_cons, foldl_append_singleton, ih, List.flatMap_cons,
      List.append_assoc, List.append_assoc]
    rfl

theorem filter_flatMap_eq {α β : Type} (p : β → Bool) (f : α → List β) :
    ∀ l : List α, (l.flatMap f).filter p = l.flatMap (fun a => (f a).filter p) := by
  intro l
  induction l with
  | nil => rfl
  | cons a rest ih =>
    rw [List.flatMap_cons, List.flatMap_cons, List.filter_append, ih]

/-- **C9.** `get_flat_mainpane_data` produces exactly the flat ordered
sequence the spec describes — the accounts sorted by account identity,
each account record (`type = "Account"`, `id = user_id`) immediately
followed by that account's rooms sorted by room identity (`type =
"Room"`, `id` the user id and room id joined by `"/"`, `user_id` the
owning account's id) — and in particular the account records occur in
nondecreasing order of their ids. -/
theorem get_flat_mainpane_data_spec (models : MainpaneModels) :
    get_flat_mainpane_data models = flat_mainpane_spec models
    ∧ List.Sorted (· ≤ ·)
        (((get_flat_mainpane_data models).filter
          (fun r => decide (r.type = "Account"))).map (fun r => r.id)) := by
  have hmain : get_flat_mainpane_data models = flat_mainpane_spec models := by
    rw [get_flat_mainpane_data, get_flat_mainpane_fold models _ []]
    rfl
  refine ⟨hmain, ?_⟩
  rw [hmain, flat_mainpane_spec, filter_flatMap_eq]
  have hgroups : ∀ a : AccountItem,
      ((accountRecord a
        :: (List.insertionSort roomLe (models.rooms a.user_id)).map
            (roomRecord a)).filter (fun r => decide (r.type = "Account")))
      = [accountRecord a] := by
    intro a
    rw [List.filter_cons]
    rw [if_pos (by simp [accountRecord])]
    rw [List.filter_eq_nil_iff.mpr ?_]
    intro r hr
    rcases List.mem_map.mp hr with ⟨room, _, hroom⟩
    subst hroom
    simp [roomRecord]
  have hflat : (List.insertionSort accountLe models.accounts).flatMap
      (fun a => (accountRecord a
        :: (List.insertionSort roomLe (models.rooms a.user_id)).map
            (roomRecord a)).filter (fun r => decide (r.type = "Account")))
      = (List.insertionSort accountLe models.accounts).map accountRecord := by
    rw [show (fun a : AccountItem => (accountRecord a
        :: (List.insertionSort roomLe (models.rooms a.user_id)).map
            (roomRecord a)).filter (fun r => decide (r.type = "Account")))
      = fun a : AccountItem => [accountRecord a] from funext hgroups]
    induction List.insertionSort accountLe models.accounts with
    | nil => rfl
    | cons a rest ih => rw [List.flatMap_cons, List.map_cons, ih]; rfl
  rw [hflat, List.map_map]
  have hsorted : List.Sorted accountLe
      (List.insertionSort accountLe models.accounts) :=
    List.sorted_insertionSort accountLe models.accounts
  exact hsorted.map _ (fun a b hab => hab)

/-!
## get_profile and the per-user lock (src/backend/backend.py)

`get_profile(user_id)` first checks `self.profile_cache` without the
lock; on a miss it acquires `self.get_profile_locks[user_id]`, fetches
the profile, stores it into the cache and releases — without re-checking
the cache after acquisition.  Two concurrent `get_profile` calls for the
same user id are embedded as a state machine driven by a schedule saying
which task advances at each cooperative step; suspension can occur only
at the lock acquisition and at the network fetch, matching the await
points of the code.
-/

/-- Where a `get_profile(U)` task currently is: about to check the
cache, blocked on `lockFor(U)`, holding the lock with its fetch in
flight, or returned. -/
inductive FetchPhase where
  | start
  | waitLock
  | fetching
  | done
  deriving DecidableEq, Repr

/-- Shared state of two concurrent `get_profile(U)` calls for one user
id `U`: whether `profile_cache[U]` is populated, who holds
`get_profile_locks[U]`, each task's phase, how many fetches were issued
in total, and whether some fetch was issued while the cache was already
populated (a redundant fetch). -/
structure ProfileRace where
  cachePopulated : Bool
  lockHolder : Option Bool
  taskA : FetchPhase
  taskB : FetchPhase
  fetches : Nat
  redundantFetch : Bool
  deriving DecidableEq, Repr

/-- The phase of the given task. -/
def phaseOf (s : ProfileRace) (who : Bool) : FetchPhase :=
  if who then s.taskA else s.taskB

/-- Move the given task to a new phase. -/
def setPhase (s : ProfileRace) (who : Bool) (p : FetchPhase) : ProfileRace :=
  if who then { s with taskA := p } else { s with taskB := p }

/-- One cooperative step of task `who` running `get_profile`:
at `start`, the unlocked `user_id in self.profile_cache` check — return
the cached entry if present, else proceed to the lock; at `waitLock`,
acquire the lock if free (issuing the fetch) else keep waiting; at
`fetching`, complete the fetch, populate the cache, release the lock and
return. -/
def get_profile_step (s : ProfileRace) (who : Bool) : ProfileRace :=
  match phaseOf s who with
  | .start =>
    if s.cachePopulated then setPhase s who .done
    else setPhase s who .waitLock
  | .waitLock =>
    match s.lockHolder with
    | none =>
      let s' := setPhase s who .fetching
      { s' with lockHolder := some who,
                fetches := s.fetches + 1,
                redundantFetch := s.redundantFetch || s.cachePopulated }
    | some _ => s
  | .fetching =>
    let s' := setPhase s who .done
    { s' with cachePopulated := true, lockHolder := none }
  | .done => s

/-- Both tasks at their first statement, cache empty, lock free. -/
def profileRaceInit : ProfileRace := ⟨false, none, .start, .start, 0, false⟩

/-- Run the two tasks under the given interleaving. -/
def get_profile_run (sched : List Bool) : ProfileRace :=
  sched.foldl get_profile_step profileRaceInit

/-- A task whose fetch is in flight holds the per-user lock. -/
def profileFetchInv (s : ProfileRace) : Prop :=
  (s.taskA = .fetching → s.lockHolder = some true)
  ∧ (s.taskB = .fetching → s.lockHolder = some false)

theorem profileFetchInv_setPhase (s : ProfileRace) (hs : profileFetchInv s)
    (who : Bool) (p : FetchPhase) (hp : p ≠ .fetching) :
    profileFetchInv (setPhase s who p) := by
  cases who with
  | true =>
    constructor
    · intro h
      simp only [setPhase, if_true] at h
      exact absurd h hp
    · intro h
      simp only [setPhase, if_true] at h ⊢
      exact hs.2 h
  | false =>
    constructor
    · intro h
      simp only [setPhase, if_false] at h ⊢
      exact hs.1 h
    · intro h
      simp only [setPhase, if_false] at h
      exact absurd h hp

theorem profileFetchInv_step (s : ProfileRace) (hs : profileFetchInv s)
    (who : Bool) : profileFetchInv (get_profile_step s who) := by
  unfold get_profile_step
  split
  · split
    · exact profileFetchInv_setPhase s hs who .done (by intro h; cases h)
    · exact profileFetchInv_setPhase s hs who .waitLock (by intro h; cases h)
  · next heq =>
    split
    · next hlock =>
      cases who with
      | true =>
        constructor
        · intro _
          rfl
        · intro h
          simp only [setPhase, if_true] at h
          exact absurd (hs.2 h) (by rw [hlock]; intro hx; cases hx)
      | false =>
        constructor
        · intro h
          simp only [setPhase, if_false] at h
          exact absurd (hs.1 h) (by rw [hlock]; intro hx; cases hx)
        · intro _
          rfl
    · exact hs
  · next heq =>
    cases who with
    | true =>
      have hAfetch : s.taskA = .fetching := by
        simpa [phaseOf] using heq
      constructor
      · intro h
        simp only [setPhase, if_true] at h
        exact absurd h (by intro hx; cases hx)
      · intro h
        simp only [setPhase, if_true] at h
        have h1 := hs.1 hAfetch
        have h2 := hs.2 h
        rw [h1] at h2
        cases h2
    | false =>
      have hBfetch : s.taskB = .fetching := by
        simpa [phaseOf] using heq
      constructor
      · intro h
        simp only [setPhase, if_false] at h
        have h1 := hs.2 hBfetch
        have h2 := hs.1 h
        rw [h1] at h2
        cases h2
      · intro h
        simp only [setPhase, if_false] at h
        exact absurd h (by intro hx; cases hx)
  · exact hs

theorem profileFetchInv_run (sched : List Bool) :
    profileFetchInv (get_profile_run sched) := by
  rw [get_profile_run]
  have hinit : profileFetchInv profileRaceInit := by
    constructor
    · intro h
      simp [profileRaceInit] at h
    · intro h
      simp [profileRaceInit] at h
  revert hinit
  generalize profileRaceInit = s
  intro hs
  induction sched generalizing s with
  | nil => exact hs
  | cons who rest ih =>
    exact ih (get_profile_step s who) (profileFetchInv_step s hs who)

/-- **C2 counterexample.** Interleaving: task A checks the cache (miss)
and acquires the lock, task B checks the cache (miss, nothing populated
yet) and blocks on the lock, A fetches, populates the cache and
releases, then B acquires the lock and fetches again although the cache
is already populated.  Two fetches are issued and the second one is
redundant — issued after the first caller populated the cache — refuting
the claim that the lock is acquired before the cache check so that a
second caller never performs a redundant fetch. -/
theorem get_profile_redundant_fetch :
    (get_profile_run [true, true, false, true, false, false]).fetches = 2
    ∧ (get_profile_run [true, true, false, true, false, false]).redundantFetch
        = true
    ∧ (get_profile_run [true, true, false, true, false, false]).taskA = .done
    ∧ (get_profile_run [true, true, false, true, false, false]).taskB = .done
    := by decide

/-- **C2 amended.** `get_profile(U)` checks the profile cache without the
lock, but acquires `lockFor(U)` before fetching and populating the
shared cache entry, so in every interleaving of two concurrent
`get_profile(U)` calls a task with a fetch in flight holds the lock and
at most one fetch for `U` is in flight at any instant; because the cache
is not re-checked once the lock is acquired, a second caller that missed
the cache before the first populated it still performs a redundant fetch
(see the counterexample). -/
theorem get_profile_mutual_exclusion (sched : List Bool) :
    profileFetchInv (get_profile_run sched)
    ∧ ¬((get_profile_run sched).taskA = .fetching
        ∧ (get_profile_run sched).taskB = .fetching) := by
  have hinv := profileFetchInv_run sched
  refine ⟨hinv, ?_⟩
  rintro ⟨h1, h2⟩
  have hA := hinv.1 h1
  have hB := hinv.2 h2
  rw [hA] at hB
  cases hB

theorem get_profile_mutual_exclusion_witness :
    ¬((get_profile_run [true, true, false]).taskA = .fetching
        ∧ (get_profile_run [true, true, false]).taskB = .fetching) :=
  (get_profile_mutual_exclusion [true, true, false]).2

end Mirage
